import Mathlib

/-!
Shallow embedding of the segment_yt_video_downloader core
(`src/services/processor.ts` in its enhanced form, `src/utils/string.ts`,
`src/utils/guards.ts`, `src/utils/progress.ts`) and proofs of the
specification claims about it.

Strings are handled through their character lists.  JavaScript numbers are
modelled as `Option ℚ` where `none` stands for `NaN`; the arithmetic helpers
propagate `NaN` exactly as JS `+`, `-`, `*` do on `NaN`.  The model of the
`Number()` coercion (`parseJsNum`) covers the empty string (which coerces
to `0`), an optional sign, and decimal digit strings with an optional
fractional part; exponent, hexadecimal and surrounding-whitespace forms,
which never arise in this code base's inputs, are mapped to `NaN`.
-/

namespace SegYt

attribute [local semireducible] Rat.add Rat.sub Rat.mul

/-! ## Decimal digits and JS number coercion -/

/-- The decimal digit characters produced by the JS `Number.prototype.toString`. -/
def digitChar : ℕ → Char
  | 0 => '0' | 1 => '1' | 2 => '2' | 3 => '3' | 4 => '4'
  | 5 => '5' | 6 => '6' | 7 => '7' | 8 => '8' | 9 => '9'
  | _ => '*'

/-- Base-10 digit expansion, most significant first; the first argument is
recursion fuel (any value at least `n` is enough). -/
def natToCharsAux : ℕ → ℕ → List Char
  | 0, _ => []
  | fuel + 1, n =>
      if n = 0 then [] else natToCharsAux fuel (n / 10) ++ [digitChar (n % 10)]

/-- Model of JS `n.toString()` for a non-negative integer `n`:
its base-10 digits, most significant first. -/
def natToChars (n : ℕ) : List Char :=
  if n = 0 then ['0'] else natToCharsAux n n

/-- `natToChars` packaged as a `String`. -/
def natToStr (n : ℕ) : String := String.mk (natToChars n)

/-- Numeric value of a list of decimal digit characters, most significant
first (the accumulator pass JS performs when coercing a digit string). -/
def digitsToNat (l : List Char) : ℕ :=
  l.foldl (fun a c => 10 * a + (c.toNat - 48)) 0

/-- Value of the fractional-part digits `fs` of a decimal literal `d.fs`. -/
def fracVal (l : List Char) : ℚ :=
  (digitsToNat l : ℚ) / ((10 : ℚ) ^ l.length)

/-- Unsigned part of the JS `Number()` coercion: decimal digits with an
optional single `.` and fractional digits; anything else is `NaN` (`none`). -/
def parseUnsigned (l : List Char) : Option ℚ :=
  match l.span Char.isDigit with
  | (ds, []) => if ds.isEmpty then none else some (digitsToNat ds : ℚ)
  | (ds, '.' :: fs) =>
      if fs.all Char.isDigit && !(ds.isEmpty && fs.isEmpty) then
        some ((digitsToNat ds : ℚ) + fracVal fs)
      else none
  | _ => none

/-- Model of the JS `Number()` coercion on a string (see the file comment
for its scope).  `Number('') = 0`; a leading sign is honoured. -/
def parseJsNum (l : List Char) : Option ℚ :=
  match l with
  | [] => some 0
  | c :: rest =>
      if c = '-' then (parseUnsigned rest).map (fun q => -q)
      else if c = '+' then parseUnsigned rest
      else parseUnsigned (c :: rest)

/-- JS `*` against a numeric literal, propagating `NaN`. -/
def jsMulC (p : Option ℚ) (c : ℚ) : Option ℚ := p.map (fun q => q * c)

/-- JS `+` on two numbers, propagating `NaN`. -/
def jsAdd : Option ℚ → Option ℚ → Option ℚ
  | some a, some b => some (a + b)
  | _, _ => none

/-- JS `-` on two numbers, propagating `NaN`. -/
def jsSub : Option ℚ → Option ℚ → Option ℚ
  | some a, some b => some (a - b)
  | _, _ => none

/-! ## Time conversion (`timestampToSeconds`, `calculateDuration`,
`formatSeconds` of `src/services/downloader.ts`) -/

/-- Model of JS `text.split(':')` on the character list of `text`. -/
def splitOnColon : List Char → List (List Char)
  | [] => [[]]
  | c :: rest =>
      if c = ':' then [] :: splitOnColon rest
      else
        match splitOnColon rest with
        | [] => [[c]]
        | p :: ps => (c :: p) :: ps

/-- `timestampToSeconds` (processor): split on `:`, map `Number` over the
parts; 3 parts are `H*3600 + M*60 + S`, 2 parts are `M*60 + S`, anything
else yields the first part alone. -/
def timestampToSeconds (timestamp : String) : Option ℚ :=
  let parts := (splitOnColon timestamp.toList).map parseJsNum
  if parts.length = 3 then
    jsAdd (jsAdd (jsMulC (parts.getD 0 none) 3600) (jsMulC (parts.getD 1 none) 60))
      (parts.getD 2 none)
  else if parts.length = 2 then
    jsAdd (jsMulC (parts.getD 0 none) 60) (parts.getD 1 none)
  else
    parts.getD 0 none

/-- `calculateDuration` (processor): `timestampToSeconds end - timestampToSeconds start`. -/
def calculateDuration (start finish : String) : Option ℚ :=
  jsSub (timestampToSeconds finish) (timestampToSeconds start)

/-- Model of JS `text.padStart(2, '0')`. -/
def padStart2 (l : List Char) : List Char :=
  if 2 ≤ l.length then l else List.replicate (2 - l.length) '0' ++ l

/-- `formatSeconds` (downloader): zero-padded `HH:MM:SS`; on a natural
number input the JS `Math.floor` calls coincide with natural division. -/
def formatSeconds (seconds : ℕ) : String :=
  let hours := seconds / 3600
  let minutes := (seconds % 3600) / 60
  let secs := seconds % 60
  String.mk
    (padStart2 (natToChars hours) ++ ':' ::
      (padStart2 (natToChars minutes) ++ ':' :: padStart2 (natToChars secs)))

/-! ## Guards and name sanitization (`src/utils/guards.ts`, `src/utils/string.ts`) -/

/-- `safeGet` (guards): a JS property read that may find `undefined`/`null`
is modelled as an `Option`; the default is returned exactly when the
property (or the object itself) is nullish. -/
def safeGet {α : Type} (value : Option α) (defaultValue : α) : α :=
  match value with
  | some v => v
  | none => defaultValue

/-- Membership in the JS regex class `\w` (ASCII word characters). -/
def isWordChar (c : Char) : Bool := c.isAlphanum || c = '_'

/-- Membership in the JS regex class `\s` (the ASCII whitespace forms;
`\x0b`/`\x0c` are vertical tab and form feed). -/
def isJsSpace (c : Char) : Bool :=
  c = ' ' || c = '\t' || c = '\n' || c = '\r' || c.toNat = 11 || c.toNat = 12

/-- Model of `replace(/\s+/g, '_')`: each maximal whitespace run becomes a
single underscore.  The boolean records whether the previous character was
part of a whitespace run already replaced. -/
def collapseWsAux : Bool → List Char → List Char
  | _, [] => []
  | inRun, c :: rest =>
      if isJsSpace c then
        if inRun then collapseWsAux true rest
        else '_' :: collapseWsAux true rest
      else c :: collapseWsAux false rest

/-- `replace(/\s+/g, '_')` on a whole character list. -/
def collapseWs (l : List Char) : List Char := collapseWsAux false l

/-- `sanitizeFileName` (string utils): nullish input yields the default;
otherwise strip every character outside `\w`, `\s`, `-`
(`replace(/[^\w\s-]/gi, '')`), then collapse whitespace runs to
underscores (`replace(/\s+/g, '_')`). -/
def sanitizeFileName (input : Option String) (defaultValue : String) : String :=
  match input with
  | none => defaultValue
  | some s =>
      let sanitized := s.toList.filter (fun c => isWordChar c || isJsSpace c || c = '-')
      String.mk (collapseWs sanitized)

/-! ## Strategy selector (`getOutputOptions` inside `segmentVideo`) -/

/-- The 3×4 `qualitySettings` object literal of `getOutputOptions`.
The outer `none` models `qualitySettings[q]` being `undefined` (so that the
subsequent `[format]` access throws a `TypeError`); the inner `none` models
`qualitySettings[q][f]` being `undefined` (so that `undefined` is returned). -/
def qualitySettings (selectedQuality selectedFormat : String) :
    Option (Option (List String)) :=
  if selectedQuality = "high" then some (
    if selectedFormat = "mp4" then
      some ["-c:v libx264", "-crf 18", "-preset medium", "-c:a aac", "-b:a 192k",
        "-movflags faststart"]
    else if selectedFormat = "mkv" then
      some ["-c:v libx264", "-crf 18", "-preset medium", "-c:a libopus", "-b:a 192k"]
    else if selectedFormat = "webm" then
      some ["-c:v libvpx-vp9", "-crf 20", "-b:v 2M", "-c:a libopus", "-b:a 128k"]
    else if selectedFormat = "ts" then
      some ["-c:v libx264", "-crf 18", "-preset medium", "-c:a aac", "-b:a 192k"]
    else none)
  else if selectedQuality = "medium" then some (
    if selectedFormat = "mp4" then
      some ["-c:v libx264", "-crf 22", "-preset fast", "-c:a aac", "-b:a 128k",
        "-movflags faststart"]
    else if selectedFormat = "mkv" then
      some ["-c:v libx264", "-crf 22", "-preset fast", "-c:a libopus", "-b:a 128k"]
    else if selectedFormat = "webm" then
      some ["-c:v libvpx-vp9", "-crf 30", "-b:v 1M", "-c:a libopus", "-b:a 96k",
        "-cpu-used 2"]
    else if selectedFormat = "ts" then
      some ["-c:v libx264", "-crf 22", "-preset fast", "-c:a aac", "-b:a 128k"]
    else none)
  else if selectedQuality = "low" then some (
    if selectedFormat = "mp4" then
      some ["-c:v libx264", "-crf 28", "-preset ultrafast", "-c:a aac", "-b:a 96k",
        "-movflags faststart"]
    else if selectedFormat = "mkv" then
      some ["-c:v libx264", "-crf 28", "-preset ultrafast", "-c:a libopus", "-b:a 96k"]
    else if selectedFormat = "webm" then
      some ["-c:v libvpx-vp9", "-crf 35", "-b:v 500k", "-c:a libopus", "-b:a 64k",
        "-cpu-used 4"]
    else if selectedFormat = "ts" then
      some ["-c:v libx264", "-crf 28", "-preset ultrafast", "-c:a aac", "-b:a 96k"]
    else none)
  else none

/-- Result of the `getOutputOptions` arrow function as a JS runtime value:
a list of option strings, the value `undefined`, or a thrown `TypeError`
from indexing into `undefined`. -/
inductive OptsResult
  | ok (args : List String)
  | retUndefined
  | jsTypeError
deriving DecidableEq, Repr

/-- `getOutputOptions` (processor, closure inside `segmentVideo`): the
`audioOnly` flag is the variable it captures from the enclosing scope,
made an explicit parameter here.  The `switch` statements are mirrored as
string comparisons in source order, including their `default:` arms. -/
def getOutputOptions (selectedFormat selectedQuality : String)
    (useStreamCopy audioOnly : Bool) : OptsResult :=
  if useStreamCopy then
    .ok (
      if selectedFormat = "mp4" then
        ["-c copy", "-movflags faststart", "-avoid_negative_ts 1"]
      else if selectedFormat = "mkv" then ["-c copy"]
      else if selectedFormat = "webm" then
        ["-c:v libvpx-vp9", "-c:a libopus", "-b:v 1M", "-cpu-used 2"]
      else if selectedFormat = "ts" then
        ["-c copy", "-mpegts_flags +resend_headers"]
      else ["-c copy"])
  else if audioOnly then
    .ok (
      if selectedFormat = "mp4" then ["-vn", "-c:a aac", "-b:a 128k"]
      else if selectedFormat = "mkv" then ["-vn", "-c:a libopus", "-b:a 128k"]
      else if selectedFormat = "webm" then ["-vn", "-c:a libopus", "-b:a 128k"]
      else if selectedFormat = "ts" then ["-vn", "-c:a aac", "-b:a 128k"]
      else ["-vn", "-c:a aac", "-b:a 128k"])
  else
    match qualitySettings selectedQuality selectedFormat with
    | none => .jsTypeError
    | some none => .retUndefined
    | some (some args) => .ok args

/-! ## Segmentation engine (`segmentVideo` of the enhanced processor) -/

/-- `OutputFormat` (processor). -/
inductive OutputFormat
  | mp4 | mkv | webm | ts
deriving DecidableEq, Repr

/-- The string value an `OutputFormat` holds at runtime. -/
def formatStr : OutputFormat → String
  | .mp4 => "mp4"
  | .mkv => "mkv"
  | .webm => "webm"
  | .ts => "ts"

/-- The `quality` union type of `SegmentOptions`. -/
inductive Quality
  | high | medium | low
deriving DecidableEq, Repr

/-- The string value a `Quality` holds at runtime. -/
def qualityStr : Quality → String
  | .high => "high"
  | .medium => "medium"
  | .low => "low"

/-- `SegmentOptions` (processor): every field optional, defaults applied
inside `segmentVideo` via `||`. -/
structure SegmentOptions where
  format : Option OutputFormat := none
  quality : Option Quality := none
  forceEncode : Option Bool := none
  audioOnly : Option Bool := none

/-- `Segment` (types): the fields are declared `string` but the code reads
them through `safeGet`, so a missing/`undefined` field is representable. -/
structure Segment where
  name : Option String
  start : Option String
  «end» : Option String
deriving DecidableEq, Repr

/-- The per-call constants `segmentVideo` computes from its arguments
before entering the segment loop. -/
structure SegCtx where
  inputPath : String
  outputDir : String
  format : OutputFormat
  quality : Quality
  forceEncode : Bool
  audioOnly : Bool
deriving DecidableEq, Repr

/-- `formatExtension` (processor line 54): `'.ts'` for the `ts` format,
otherwise `'.' + format`. -/
def formatExtension (format : OutputFormat) : String :=
  if format = .ts then ".ts" else "." ++ formatStr format

/-- One external-tool (`ffmpeg`) invocation: which segment, whether the
output options were the `useStreamCopy` set, and the `duration` value
passed (`none` is `NaN`). -/
structure Attempt where
  idx : ℕ
  streamCopy : Bool
  duration : Option ℚ
deriving DecidableEq, Repr

/-- The default label `segment_{index+1}` used for missing names. -/
def segmentLabel (index : ℕ) : String := "segment_" ++ natToStr (index + 1)

/-- The name computation of the segment loop (processor lines 227 and
240): `safeGet(segment, 'name', label)` then `sanitizeFileName(name, label)`. -/
def normalizeName (segment : Segment) (index : ℕ) : String :=
  sanitizeFileName (some (safeGet segment.name (segmentLabel index))) (segmentLabel index)

/-- The destination path of a segment (processor lines 241-244);
`path.join` is modelled as concatenation with a single `/`. -/
def outPath (ctx : SegCtx) (index : ℕ) (segment : Segment) : String :=
  ctx.outputDir ++ "/" ++ normalizeName segment index ++ formatExtension ctx.format

/-- Outcome of the body of the segment loop for one segment: either the
segment's path was recorded (`continue`), or the loop was left by a
thrown/rejected error.  `fs` is the set of existing files afterwards and
`tr` the tool invocations made. -/
inductive StepOut
  | done (path : String) (fs : List String) (tr : List Attempt)
  | threw (err : String) (fs : List String) (tr : List Attempt)
deriving DecidableEq, Repr

/-- The `.duration(calculateDuration(start, end))` argument of every tool
invocation, with the `safeGet` defaults for `start` and `end` applied as
in the loop body. -/
def segDur (segment : Segment) : Option ℚ :=
  calculateDuration (safeGet segment.start "00:00:00") (safeGet segment.«end» "23:59:59")

/-- The body of the `for (const [index, segment] of segments.entries())`
loop of `segmentVideo`.  The external tool's success/failure on an
invocation is the oracle `o index useStreamCopy`; a successful invocation
creates the destination file, a failed one is modelled as leaving no
file.  Mirrors the source exactly: idempotence check first, then either
the single forced encode or the copy attempt with encode fallback; a
failed forced encode or a failed fallback rejects out of the loop. -/
def segStep (ctx : SegCtx) (o : ℕ → Bool → Bool) (index : ℕ) (segment : Segment)
    (fs : List String) : StepOut :=
  let path := outPath ctx index segment
  if fs.contains path then
    .done path fs []
  else
    let dur := segDur segment
    if ctx.forceEncode then
      if o index false then .done path (path :: fs) [⟨index, false, dur⟩]
      else .threw "Error encoding segment" fs [⟨index, false, dur⟩]
    else
      if o index true then .done path (path :: fs) [⟨index, true, dur⟩]
      else if o index false then
        .done path (path :: fs) [⟨index, true, dur⟩, ⟨index, false, dur⟩]
      else .threw "Error encoding segment" fs [⟨index, true, dur⟩, ⟨index, false, dur⟩]

/-- Aggregate result of a `segmentVideo` call: the returned path array or
the rethrown error, the resulting file set, and the tool invocations in
order. -/
structure RunResult where
  result : Except String (List String)
  fs : List String
  trace : List Attempt
deriving Repr

/-- The segment loop of `segmentVideo`, processing segments strictly in
input order; a thrown per-segment error propagates to the outer
`try`/`catch`, which rethrows it, so the remaining segments are not
reached. -/
def segLoop (ctx : SegCtx) (o : ℕ → Bool → Bool) :
    ℕ → List Segment → List String → RunResult
  | _, [], fs => ⟨.ok [], fs, []⟩
  | index, segment :: rest, fs =>
      match segStep ctx o index segment fs with
      | .done path fs' tr =>
          let r := segLoop ctx o (index + 1) rest fs'
          { result :=
              match r.result with
              | .ok paths => .ok (path :: paths)
              | .error e => .error e
            fs := r.fs
            trace := tr ++ r.trace }
      | .threw err fs' tr => ⟨.error err, fs', tr⟩

/-- `segmentVideo` (processor): applies the `||` defaults to the options
and runs the segment loop from index 0 on the given file set. -/
def segmentVideo (inputPath outputDir : String) (segments : List Segment)
    (options : SegmentOptions) (fs : List String) (o : ℕ → Bool → Bool) : RunResult :=
  let ctx : SegCtx :=
    { inputPath := inputPath
      outputDir := outputDir
      format := safeGet options.format .mp4
      quality := safeGet options.quality .medium
      forceEncode := safeGet options.forceEncode false
      audioOnly := safeGet options.audioOnly false }
  segLoop ctx o 0 segments fs

/-- The deterministic destination paths of a segment list, in input order. -/
def pathsOf (ctx : SegCtx) : ℕ → List Segment → List String
  | _, [] => []
  | index, segment :: rest => outPath ctx index segment :: pathsOf ctx (index + 1) rest

/-! ## Progress tracker (`src/utils/progress.ts`) -/

/-- `ProgressTracker` (types): completed video ids and failed
`{id, error}` records. -/
structure ProgressTracker where
  completed : List String
  failed : List (String × String)
deriving DecidableEq, Repr

/-- `markVideoCompleted` (progress): no-op when already completed, else
push onto `completed` and filter the id out of `failed`.  The
`saveProgress` file write is an external side effect not modelled. -/
def markVideoCompleted (progress : ProgressTracker) (videoId : String) :
    ProgressTracker :=
  if progress.completed.contains videoId then progress
  else
    { completed := progress.completed ++ [videoId]
      failed := progress.failed.filter (fun item => item.1 ≠ videoId) }

/-- `markVideoFailed` (progress): filter the id out of `completed` and out
of `failed`, then push the new failed record. -/
def markVideoFailed (progress : ProgressTracker) (videoId error : String) :
    ProgressTracker :=
  { completed := progress.completed.filter (fun id => id ≠ videoId)
    failed := progress.failed.filter (fun item => item.1 ≠ videoId) ++ [(videoId, error)] }

/-- The states reachable from the empty tracker through the two marking
operations. -/
inductive ReachableTracker : ProgressTracker → Prop
  | empty : ReachableTracker ⟨[], []⟩
  | completed {p : ProgressTracker} (videoId : String) :
      ReachableTracker p → ReachableTracker (markVideoCompleted p videoId)
  | failed {p : ProgressTracker} (videoId error : String) :
      ReachableTracker p → ReachableTracker (markVideoFailed p videoId error)

/-- The trace component of a loop-body outcome. -/
def stepTr : StepOut → List Attempt
  | .done _ _ tr => tr
  | .threw _ _ tr => tr

/-- The tool invocations a trace records for segment index `j`. -/
def attemptsFor (tr : List Attempt) (j : ℕ) : List Attempt :=
  tr.filter (fun a => a.idx == j)

/-- Decidable equality of run results, for evaluating the engine on
concrete inputs inside proofs. -/
instance : DecidableEq (Except String (List String)) := fun a b =>
  match a, b with
  | .ok x, .ok y =>
      if h : x = y then .isTrue (by rw [h]) else .isFalse (by simp [h])
  | .error x, .error y =>
      if h : x = y then .isTrue (by rw [h]) else .isFalse (by simp [h])
  | .ok _, .error _ => .isFalse (by simp)
  | .error _, .ok _ => .isFalse (by simp)

instance : DecidableEq RunResult := fun a b =>
  if h : a.result = b.result ∧ a.fs = b.fs ∧ a.trace = b.trace then
    .isTrue (by obtain ⟨r, f, t⟩ := a; obtain ⟨r', f', t'⟩ := b; simp_all)
  else .isFalse (by intro he; exact h (by rw [he]; exact ⟨rfl, rfl, rfl⟩))

/-! ## Helper lemmas: decimal digits and number coercion -/

theorem digitChar_isDigit {d : ℕ} (h : d < 10) : (digitChar d).isDigit = true := by
  interval_cases d <;> decide

theorem digitChar_toNat {d : ℕ} (h : d < 10) : (digitChar d).toNat - 48 = d := by
  interval_cases d <;> decide

theorem natToCharsAux_spec : ∀ (fuel n : ℕ), n ≤ fuel →
    (∀ c ∈ natToCharsAux fuel n, c.isDigit = true) ∧
    digitsToNat (natToCharsAux fuel n) = n := by
  intro fuel
  induction fuel with
  | zero =>
      intro n hn
      have h0 : n = 0 := by omega
      subst h0
      exact ⟨fun c hc => by simp [natToCharsAux] at hc, rfl⟩
  | succ fuel ih =>
      intro n hn
      by_cases h0 : n = 0
      · subst h0
        exact ⟨fun c hc => by simp [natToCharsAux] at hc, rfl⟩
      · have hdiv : n / 10 ≤ fuel := by omega
        obtain ⟨ihd, ihv⟩ := ih (n / 10) hdiv
        constructor
        · intro c hc
          unfold natToCharsAux at hc
          rw [if_neg h0, List.mem_append, List.mem_singleton] at hc
          rcases hc with hc | rfl
          · exact ihd c hc
          · exact digitChar_isDigit (Nat.mod_lt n (by norm_num))
        · unfold natToCharsAux
          rw [if_neg h0]
          unfold digitsToNat
          rw [List.foldl_append]
          simp only [List.foldl_cons, List.foldl_nil]
          have hval : (digitChar (n % 10)).toNat - 48 = n % 10 :=
            digitChar_toNat (Nat.mod_lt n (by norm_num))
          unfold digitsToNat at ihv
          rw [ihv, hval]
          omega

theorem natToChars_isDigit (n : ℕ) : ∀ c ∈ natToChars n, c.isDigit = true := by
  intro c hc
  unfold natToChars at hc
  split at hc
  · simp only [List.mem_singleton] at hc
    subst hc; decide
  · exact (natToCharsAux_spec n n le_rfl).1 c hc

theorem isDigit_toNat_bounds {c : Char} (h : c.isDigit = true) :
    48 ≤ c.toNat ∧ c.toNat ≤ 57 := by
  simpa [Char.isDigit] using h

theorem digitsToNat_cons_zero (l : List Char) : digitsToNat ('0' :: l) = digitsToNat l := rfl

theorem digitsToNat_replicate_zero (k : ℕ) (l : List Char) :
    digitsToNat (List.replicate k '0' ++ l) = digitsToNat l := by
  induction k with
  | zero => simp
  | succ k ih => rw [List.replicate_succ, List.cons_append, digitsToNat_cons_zero, ih]

theorem digitsToNat_natToChars (n : ℕ) : digitsToNat (natToChars n) = n := by
  unfold natToChars
  split
  · subst ‹n = 0›; decide
  · exact (natToCharsAux_spec n n le_rfl).2

theorem parseUnsigned_digits (l : List Char) (hne : l ≠ [])
    (hd : ∀ c ∈ l, c.isDigit = true) :
    parseUnsigned l = some (digitsToNat l : ℚ) := by
  unfold parseUnsigned
  have hspan : l.span Char.isDigit = (l, []) := by
    rw [List.span_eq_take_drop]
    rw [List.takeWhile_eq_self_iff.mpr hd, List.dropWhile_eq_nil_iff.mpr hd]
  rw [hspan]
  simp [List.isEmpty_iff, hne]

theorem parseJsNum_digits (l : List Char) (hne : l ≠ [])
    (hd : ∀ c ∈ l, c.isDigit = true) :
    parseJsNum l = some (digitsToNat l : ℚ) := by
  obtain ⟨c, rest, rfl⟩ := List.exists_cons_of_ne_nil hne
  have hc : c.isDigit = true := hd c (List.mem_cons_self c rest)
  have h1 : c ≠ '-' := by rintro rfl; exact absurd hc (by decide)
  have h2 : c ≠ '+' := by rintro rfl; exact absurd hc (by decide)
  rw [show parseJsNum (c :: rest) =
      (if c = '-' then (parseUnsigned rest).map (fun q => -q)
        else if c = '+' then parseUnsigned rest
        else parseUnsigned (c :: rest)) from rfl]
  rw [if_neg h1, if_neg h2, parseUnsigned_digits _ (by simp) hd]

theorem padStart2_isDigit {l : List Char} (h : ∀ c ∈ l, c.isDigit = true) :
    ∀ c ∈ padStart2 l, c.isDigit = true := by
  intro c hc
  unfold padStart2 at hc
  split at hc
  · exact h c hc
  · rw [List.mem_append] at hc
    rcases hc with hc | hc
    · rw [List.eq_of_mem_replicate hc]; decide
    · exact h c hc

theorem padStart2_ne_nil (l : List Char) : padStart2 l ≠ [] := by
  unfold padStart2
  split
  · rename_i h
    intro hnil
    rw [hnil] at h
    simp at h
  · rename_i h
    simp only [not_le] at h
    intro hnil
    have := congrArg List.length hnil
    simp at this
    omega

theorem digitsToNat_padStart2 (n : ℕ) :
    digitsToNat (padStart2 (natToChars n)) = n := by
  unfold padStart2
  split
  · exact digitsToNat_natToChars n
  · rw [digitsToNat_replicate_zero, digitsToNat_natToChars]

theorem parseJsNum_padStart2 (n : ℕ) :
    parseJsNum (padStart2 (natToChars n)) = some (n : ℚ) := by
  rw [parseJsNum_digits _ (padStart2_ne_nil _) (padStart2_isDigit (natToChars_isDigit n)),
    digitsToNat_padStart2]

/-! ## Helper lemmas: splitting on colons -/

theorem splitOnColon_no_colon {a : List Char} (h : ∀ c ∈ a, c ≠ ':') :
    splitOnColon a = [a] := by
  induction a with
  | nil => rfl
  | cons c rest ih =>
      have hc : c ≠ ':' := h c (List.mem_cons_self c rest)
      have hrest : ∀ x ∈ rest, x ≠ ':' := fun x hx => h x (List.mem_cons_of_mem c hx)
      unfold splitOnColon
      rw [if_neg hc, ih hrest]

theorem splitOnColon_append {a : List Char} (b : List Char) (h : ∀ c ∈ a, c ≠ ':') :
    splitOnColon (a ++ ':' :: b) = a :: splitOnColon b := by
  induction a with
  | nil => simp [splitOnColon]
  | cons c rest ih =>
      have hc : c ≠ ':' := h c (List.mem_cons_self c rest)
      have hrest : ∀ x ∈ rest, x ≠ ':' := fun x hx => h x (List.mem_cons_of_mem c hx)
      rw [List.cons_append]
      rw [show splitOnColon (c :: (rest ++ ':' :: b)) =
          (if c = ':' then [] :: splitOnColon (rest ++ ':' :: b)
            else match splitOnColon (rest ++ ':' :: b) with
              | [] => [[c]]
              | p :: ps => (c :: p) :: ps) from rfl]
      rw [if_neg hc, ih hrest]

theorem isDigit_ne_colon {c : Char} (h : c.isDigit = true) : c ≠ ':' := by
  rintro rfl
  exact absurd h (by decide)

/-- CLAIM C6: for every non-negative integer number of seconds `x`,
parsing the zero-padded `HH:MM:SS` timestamp produced by `formatSeconds`
back through `timestampToSeconds` yields exactly `x`. -/
theorem timestampToSeconds_formatSeconds (x : ℕ) :
    timestampToSeconds (formatSeconds x) = some (x : ℚ) := by
  unfold formatSeconds timestampToSeconds
  have hH := padStart2_isDigit (natToChars_isDigit (x / 3600))
  have hM := padStart2_isDigit (natToChars_isDigit (x % 3600 / 60))
  have hS := padStart2_isDigit (natToChars_isDigit (x % 60))
  have htl : (String.mk
      (padStart2 (natToChars (x / 3600)) ++ ':' ::
        (padStart2 (natToChars (x % 3600 / 60)) ++ ':' ::
          padStart2 (natToChars (x % 60))))).toList =
      padStart2 (natToChars (x / 3600)) ++ ':' ::
        (padStart2 (natToChars (x % 3600 / 60)) ++ ':' ::
          padStart2 (natToChars (x % 60))) := rfl
  rw [htl, splitOnColon_append _ (fun c hc => isDigit_ne_colon (hH c hc)),
    splitOnColon_append _ (fun c hc => isDigit_ne_colon (hM c hc)),
    splitOnColon_no_colon (fun c hc => isDigit_ne_colon (hS c hc))]
  simp only [List.map_cons, List.map_nil, List.length_cons, List.length_nil]
  norm_num
  rw [parseJsNum_padStart2, parseJsNum_padStart2, parseJsNum_padStart2]
  show some ((((x / 3600 : ℕ) : ℚ) * 3600 + ((x % 3600 / 60 : ℕ) : ℚ) * 60) +
      ((x % 60 : ℕ) : ℚ)) = some (x : ℚ)
  congr 1
  have hx : x / 3600 * 3600 + x % 3600 / 60 * 60 + x % 60 = x := by omega
  have hq : ((x / 3600 * 3600 + x % 3600 / 60 * 60 + x % 60 : ℕ) : ℚ) = (x : ℚ) := by
    rw [hx]
  push_cast at hq
  linarith [hq]

/-! ## Claim C5: non-numeric timestamp parts -/

/-- CLAIM C5 (counterexample): on an input with a non-numeric part,
`timestampToSeconds` does not raise anything — it is a total function that
returns the `NaN` value (`none`), here on `"aa:30"`. -/
theorem timestampToSeconds_nonnumeric_returns :
    timestampToSeconds "aa:30" = none := by decide

/-- CLAIM C5 (amended): for inputs with at most three colon-separated
parts, a non-numeric part makes `timestampToSeconds` return `NaN`
(propagated through the arithmetic) instead of raising; with four or more
parts only the first part is consulted at all. -/
theorem timestampToSeconds_nan (s : String)
    (hlen : ((splitOnColon s.toList).map parseJsNum).length ≤ 3)
    (hnan : none ∈ (splitOnColon s.toList).map parseJsNum) :
    timestampToSeconds s = none := by
  unfold timestampToSeconds
  revert hlen hnan
  generalize (splitOnColon s.toList).map parseJsNum = parts
  intro hlen hnan
  match parts with
  | [] => simp at hnan
  | [a] =>
      simp only [List.mem_singleton] at hnan
      subst hnan
      rfl
  | [a, b] =>
      simp only [List.mem_cons, List.mem_singleton, List.not_mem_nil, or_false] at hnan
      rcases hnan with rfl | rfl
      · cases b <;> rfl
      · cases a <;> rfl
  | [a, b, c] =>
      simp only [List.mem_cons, List.not_mem_nil, or_false] at hnan
      rcases hnan with rfl | rfl | rfl
      · cases b <;> cases c <;> rfl
      · cases a <;> cases c <;> rfl
      · cases a <;> cases b <;> rfl
  | a :: b :: c :: d :: rest => simp at hlen

/-- CLAIM C5 (amended, witness): the amended statement applied at the
concrete input `"xx:05"`. -/
theorem timestampToSeconds_nan_witness :
    ((splitOnColon ("xx:05").toList).map parseJsNum).length ≤ 3 ∧
    none ∈ (splitOnColon ("xx:05").toList).map parseJsNum ∧
    timestampToSeconds "xx:05" = none :=
  ⟨by decide, by decide, timestampToSeconds_nan "xx:05" (by decide) (by decide)⟩

/-! ## Claim C3: non-positive computed duration -/

/-- CLAIM C3 (counterexample): with start `"00:02:00"` and end
`"00:01:30"` the computed duration is `-30`, yet `segmentVideo` raises no
`InvalidSegmentError` — no such error exists in the code — and invokes the
external tool for that segment (the trace records the invocation, and the
run even succeeds when the tool does). -/
theorem segmentVideo_negative_duration_invokes :
    calculateDuration "00:02:00" "00:01:30" = some (-30) ∧
    segmentVideo "in.mp4" "out"
        [⟨some "Bad", some "00:02:00", some "00:01:30"⟩] {} []
        (fun _ _ => true) =
      ⟨.ok ["out/Bad.mp4"], ["out/Bad.mp4"], [⟨0, true, some (-30)⟩]⟩ :=
  ⟨by decide, by decide⟩

/-- CLAIM C3 (amended): `calculateDuration` returns the signed difference
of the parsed timestamps (`30` for the well-ordered pair, `-30` for the
inverted pair); `segmentVideo` performs no duration check: a segment whose
duration is negative still leads to tool invocations carrying that
negative duration. -/
theorem calculateDuration_no_validation :
    calculateDuration "00:01:30" "00:02:00" = some 30 ∧
    calculateDuration "00:02:00" "00:01:30" = some (-30) ∧
    (segmentVideo "in.mp4" "out2"
        [⟨some "Neg", some "00:02:00", some "00:01:30"⟩] {} []
        (fun _ _ => false)).trace =
      [⟨0, true, some (-30)⟩, ⟨0, false, some (-30)⟩] :=
  ⟨by decide, by decide, by decide⟩

/-! ## Claim C1: behaviour after a terminal per-segment failure -/

/-- CLAIM C1 (code evaluation at the failing input): segment 0 fails both
attempts while segment 1 would succeed; the call rejects with segment 0's
error, records no invocation at all for segment 1, and returns no
aggregate of per-segment errors — the loop is aborted by the rethrow. -/
theorem segmentVideo_aborts_on_failure :
    segmentVideo "in.mp4" "out"
        [⟨some "A", some "00:00:00", some "00:00:10"⟩,
         ⟨some "B", some "00:00:10", some "00:00:20"⟩] {} []
        (fun i _ => i == 1) =
      ⟨.error "Error encoding segment", [],
        [⟨0, true, some 10⟩, ⟨0, false, some 10⟩]⟩ := by
  decide

/-! ## Claim C4: webm never stream-copies -/

/-- CLAIM C4: for every valid quality and both values of `useStreamCopy`
and `audioOnly`, the options chosen for `webm` contain no `-c copy`; when
the copy path is requested the returned set is the VP9/Opus re-encode set,
and whenever video is kept (copy path, or encode path without `audioOnly`)
the set names the VP9 video codec and the Opus audio codec. -/
theorem getOutputOptions_webm_never_copies
    (q : String) (useStreamCopy audioOnly : Bool)
    (hq : q = "high" ∨ q = "medium" ∨ q = "low") :
    ∃ args, getOutputOptions "webm" q useStreamCopy audioOnly = .ok args ∧
      "-c copy" ∉ args ∧
      ((useStreamCopy = true ∨ audioOnly = false) →
        "-c:v libvpx-vp9" ∈ args ∧ "-c:a libopus" ∈ args) := by
  rcases hq with rfl | rfl | rfl <;> cases useStreamCopy <;> cases audioOnly <;>
    first
      | exact ⟨_, rfl, by decide, fun _ => by decide⟩
      | exact ⟨_, rfl, by decide, fun hv => by simp at hv⟩

/-- CLAIM C4 (witness): the theorem applied at quality `"medium"` with the
copy path requested. -/
theorem getOutputOptions_webm_never_copies_witness :
    ∃ args, getOutputOptions "webm" "medium" true false = .ok args ∧
      "-c copy" ∉ args ∧
      ((true = true ∨ false = false) →
        "-c:v libvpx-vp9" ∈ args ∧ "-c:a libopus" ∈ args) :=
  getOutputOptions_webm_never_copies "medium" true false (Or.inr (Or.inl rfl))

/-! ## Claim C9: out-of-enum format/quality values -/

/-- CLAIM C9 (counterexample): for the out-of-enum format `"avi"` the
stream-copy branch silently returns the default `['-c copy']` instead of
failing fast. -/
theorem getOutputOptions_unknown_format_defaults :
    getOutputOptions "avi" "medium" true false = .ok ["-c copy"] ∧
    ("avi" ≠ "mp4" ∧ "avi" ≠ "mkv" ∧ "avi" ≠ "webm" ∧ "avi" ≠ "ts") :=
  ⟨rfl, by decide⟩

/-- CLAIM C9 (amended): the selector does not fail fast on out-of-enum
values: the stream-copy branch and the audio-only branch silently return
their `default:` option sets for an unknown format; in the video-encode
branch an unknown quality raises a `TypeError` (not an
`UnsupportedEnumError`, which does not exist in the code) and an unknown
format under a valid quality silently returns `undefined`. -/
theorem getOutputOptions_out_of_enum (q : String) (audioOnly : Bool) :
    getOutputOptions "avi" q true audioOnly = .ok ["-c copy"] ∧
    getOutputOptions "avi" "medium" false true = .ok ["-vn", "-c:a aac", "-b:a 128k"] ∧
    getOutputOptions "mp4" "ultra" false false = .jsTypeError ∧
    getOutputOptions "avi" "medium" false false = .retUndefined :=
  ⟨rfl, rfl, rfl, rfl⟩

/-! ## Claim C7: name normalization -/

/-- CLAIM C7 (counterexample): a present but empty name at index 2 does
not normalize to `"segment_3"`; `safeGet` only replaces nullish values, and
`sanitizeFileName` maps the empty string to itself, so the token is empty. -/
theorem normalizeName_empty_name :
    normalizeName ⟨some "", some "00:00:00", some "00:01:00"⟩ 2 = "" ∧
    segmentLabel 2 = "segment_3" ∧ ("" : String) ≠ "segment_3" :=
  ⟨rfl, by decide, by decide⟩

theorem isDigit_isWordChar {c : Char} (h : c.isDigit = true) : isWordChar c = true := by
  simp [isWordChar, Char.isAlphanum, h]

theorem isDigit_not_space {c : Char} (h : c.isDigit = true) : isJsSpace c = false := by
  have h48 := (isDigit_toNat_bounds h).1
  have hs : c ≠ ' ' := by rintro rfl; exact absurd h48 (by decide)
  have ht : c ≠ '\t' := by rintro rfl; exact absurd h48 (by decide)
  have hn : c ≠ '\n' := by rintro rfl; exact absurd h48 (by decide)
  have hr : c ≠ '\r' := by rintro rfl; exact absurd h48 (by decide)
  have h11 : c.toNat ≠ 11 := by omega
  have h12 : c.toNat ≠ 12 := by omega
  simp [isJsSpace, hs, ht, hn, hr, h11, h12]

theorem collapseWsAux_no_space (b : Bool) (l : List Char)
    (h : ∀ c ∈ l, isJsSpace c = false) : collapseWsAux b l = l := by
  induction l generalizing b with
  | nil => rfl
  | cons c rest ih =>
      have hc := h c (List.mem_cons_self c rest)
      unfold collapseWsAux
      simp [hc, ih false (fun x hx => h x (List.mem_cons_of_mem c hx))]

theorem collapseWsAux_chars (l : List Char) :
    ∀ (b : Bool), (∀ c ∈ l, (isWordChar c || isJsSpace c || c = '-') = true) →
    ∀ c ∈ collapseWsAux b l, (isWordChar c || c = '-') = true := by
  induction l with
  | nil => intro b _ c hc; simp [collapseWsAux] at hc
  | cons a rest ih =>
      intro b h c hc
      have ha := h a (List.mem_cons_self a rest)
      have hrest := fun x hx => h x (List.mem_cons_of_mem a hx)
      by_cases hs : isJsSpace a = true
      · cases b with
        | true =>
            rw [show collapseWsAux true (a :: rest) =
                (if isJsSpace a then collapseWsAux true rest
                  else a :: collapseWsAux false rest) from rfl, if_pos hs] at hc
            exact ih true hrest c hc
        | false =>
            rw [show collapseWsAux false (a :: rest) =
                (if isJsSpace a then '_' :: collapseWsAux true rest
                  else a :: collapseWsAux false rest) from rfl, if_pos hs] at hc
            rcases List.mem_cons.mp hc with rfl | hc
            · decide
            · exact ih true hrest c hc
      · have hs' : isJsSpace a = false := by simpa using hs
        rw [show collapseWsAux b (a :: rest) =
            (if isJsSpace a then
                (if b then collapseWsAux true rest else '_' :: collapseWsAux true rest)
              else a :: collapseWsAux false rest) from rfl,
          if_neg (by simp [hs'])] at hc
        rcases List.mem_cons.mp hc with rfl | hc
        · rw [hs'] at ha
          simpa using ha
        · exact ih false hrest c hc

theorem sanitizeFileName_chars (s d : String) :
    ((sanitizeFileName (some s) d).toList.all (fun c => isWordChar c || c = '-')) = true := by
  rw [List.all_eq_true]
  intro c hc
  have heq : (sanitizeFileName (some s) d).toList =
      collapseWsAux false
        (s.toList.filter (fun c => isWordChar c || isJsSpace c || c = '-')) := rfl
  rw [heq] at hc
  exact collapseWsAux_chars _ false (fun x hx => (List.mem_filter.mp hx).2) c hc

theorem segmentLabel_chars (index : ℕ) :
    ∀ c ∈ (segmentLabel index).toList, isWordChar c = true ∧ isJsSpace c = false := by
  have hfixed : ∀ c ∈ "segment_".toList, isWordChar c = true ∧ isJsSpace c = false := by
    decide
  intro c hc
  have heq : (segmentLabel index).toList =
      "segment_".toList ++ natToChars (index + 1) := rfl
  rw [heq, List.mem_append] at hc
  rcases hc with hc | hc
  · exact hfixed c hc
  · have hd := natToChars_isDigit (index + 1) c hc
    exact ⟨isDigit_isWordChar hd, isDigit_not_space hd⟩

theorem sanitizeFileName_segmentLabel (index : ℕ) :
    sanitizeFileName (some (segmentLabel index)) (segmentLabel index) =
      segmentLabel index := by
  have hkeep : (segmentLabel index).toList.filter
      (fun c => isWordChar c || isJsSpace c || c = '-') = (segmentLabel index).toList :=
    List.filter_eq_self.mpr (fun c hc => by
      simp [(segmentLabel_chars index c hc).1])
  show String.mk (collapseWs ((segmentLabel index).toList.filter
      (fun c => isWordChar c || isJsSpace c || c = '-'))) = segmentLabel index
  rw [hkeep]
  rw [show collapseWs ((segmentLabel index).toList) =
      collapseWsAux false ((segmentLabel index).toList) from rfl]
  rw [collapseWsAux_no_space false _ (fun c hc => (segmentLabel_chars index c hc).2)]
  rfl

/-- CLAIM C7 (amended): a missing (`undefined`/`null`) name at index `i`
normalizes to `segment_{i+1}`; every sanitized token consists only of word
characters (underscore included) and hyphens; `"Intro: Part 1!"`
normalizes to `"Intro_Part_1"`.  A present empty name, however, yields the
empty token (see the counterexample). -/
theorem normalizeName_spec :
    (∀ (index : ℕ) (st fin : Option String),
      normalizeName ⟨none, st, fin⟩ index = segmentLabel index) ∧
    (∀ (s d : String),
      ((sanitizeFileName (some s) d).toList.all (fun c => isWordChar c || c = '-')) = true) ∧
    sanitizeFileName (some "Intro: Part 1!") "x" = "Intro_Part_1" := by
  refine ⟨?_, sanitizeFileName_chars, rfl⟩
  intro index st fin
  show sanitizeFileName (some (safeGet (none : Option String) (segmentLabel index)))
      (segmentLabel index) = segmentLabel index
  rw [show safeGet (none : Option String) (segmentLabel index) = segmentLabel index from rfl]
  exact sanitizeFileName_segmentLabel index

/-! ## Claim C10: progress tracker invariant -/

/-- CLAIM C10: every tracker state reachable from the empty tracker
through `markVideoCompleted` and `markVideoFailed` has disjoint completed
and failed id sets: no failed record's id is also in the completed list. -/
theorem reachableTracker_disjoint :
    ∀ p, ReachableTracker p → ∀ e ∈ p.failed, e.1 ∉ p.completed := by
  intro p hp
  induction hp with
  | empty => intro e he; simp at he
  | completed videoId _ ih =>
      intro e he hmem
      unfold markVideoCompleted at he hmem
      by_cases hc : (‹ProgressTracker›.completed.contains videoId) = true
      · rw [if_pos hc] at he hmem
        exact ih e he hmem
      · rw [if_neg hc] at he hmem
        simp only [List.mem_filter, decide_eq_true_eq] at he
        rw [List.mem_append, List.mem_singleton] at hmem
        rcases hmem with hm | hm
        · exact ih e he.1 hm
        · exact he.2 hm
  | failed videoId error _ ih =>
      intro e he hmem
      unfold markVideoFailed at he hmem
      simp only [List.mem_append, List.mem_singleton, List.mem_filter,
        decide_eq_true_eq] at he hmem
      rcases he with he | rfl
      · exact ih e he.1 hmem.1
      · exact hmem.2 rfl

/-- CLAIM C10 (witness): the invariant applied to the concrete reachable
state obtained by marking video `"a"` failed from the empty tracker. -/
theorem reachableTracker_disjoint_witness :
    ("a", "boom").1 ∉ (markVideoFailed ⟨[], []⟩ "a" "boom").completed :=
  reachableTracker_disjoint _
    (ReachableTracker.failed "a" "boom" ReachableTracker.empty)
    ("a", "boom") (by decide)

/-! ## Helper lemmas: the segment loop -/

theorem contains_iff_mem {l : List String} {p : String} :
    l.contains p = true ↔ p ∈ l := List.elem_iff

theorem segStep_of_contains (ctx : SegCtx) (o : ℕ → Bool → Bool) (index : ℕ)
    (segment : Segment) (fs : List String)
    (h : fs.contains (outPath ctx index segment) = true) :
    segStep ctx o index segment fs = .done (outPath ctx index segment) fs [] := by
  simp only [segStep]
  rw [if_pos h]

theorem segStep_done_spec {ctx : SegCtx} {o : ℕ → Bool → Bool} {index : ℕ}
    {segment : Segment} {fs : List String} {path : String} {fs' : List String}
    {tr : List Attempt}
    (h : segStep ctx o index segment fs = .done path fs' tr) :
    path = outPath ctx index segment ∧ fs'.contains path = true ∧
    (∀ p, fs.contains p = true → fs'.contains p = true) := by
  have hself : ∀ (q : String) (l : List String), (q :: l).contains q = true :=
    fun q l => contains_iff_mem.mpr (List.mem_cons_self q l)
  have hmono : ∀ (q p : String) (l : List String),
      l.contains p = true → (q :: l).contains p = true :=
    fun q p l hp => contains_iff_mem.mpr (List.mem_cons_of_mem q (contains_iff_mem.mp hp))
  simp only [segStep] at h
  by_cases h0 : fs.contains (outPath ctx index segment) = true
  · rw [if_pos h0] at h
    cases h
    exact ⟨rfl, h0, fun p hp => hp⟩
  · rw [if_neg h0] at h
    by_cases hf : ctx.forceEncode = true
    · rw [if_pos hf] at h
      by_cases ho : o index false = true
      · rw [if_pos ho] at h
        cases h
        exact ⟨rfl, hself _ _, fun p hp => hmono _ _ _ hp⟩
      · rw [if_neg ho] at h
        cases h
    · rw [if_neg hf] at h
      by_cases ho : o index true = true
      · rw [if_pos ho] at h
        cases h
        exact ⟨rfl, hself _ _, fun p hp => hmono _ _ _ hp⟩
      · rw [if_neg ho] at h
        by_cases ho2 : o index false = true
        · rw [if_pos ho2] at h
          cases h
          exact ⟨rfl, hself _ _, fun p hp => hmono _ _ _ hp⟩
        · rw [if_neg ho2] at h
          cases h

theorem stepTr_spec (ctx : SegCtx) (o : ℕ → Bool → Bool) (index : ℕ)
    (segment : Segment) (fs : List String) :
    stepTr (segStep ctx o index segment fs) = [] ∨
    (ctx.forceEncode = true ∧
      stepTr (segStep ctx o index segment fs) = [⟨index, false, segDur segment⟩]) ∨
    (ctx.forceEncode = false ∧ o index true = true ∧
      stepTr (segStep ctx o index segment fs) = [⟨index, true, segDur segment⟩]) ∨
    (ctx.forceEncode = false ∧ o index true = false ∧
      stepTr (segStep ctx o index segment fs) =
        [⟨index, true, segDur segment⟩, ⟨index, false, segDur segment⟩]) := by
  simp only [segStep]
  by_cases h0 : fs.contains (outPath ctx index segment) = true
  · rw [if_pos h0]; left; rfl
  · rw [if_neg h0]
    by_cases hf : ctx.forceEncode = true
    · rw [if_pos hf]
      by_cases ho : o index false = true
      · rw [if_pos ho]; right; left; exact ⟨hf, rfl⟩
      · rw [if_neg ho]; right; left; exact ⟨hf, rfl⟩
    · have hf' : ctx.forceEncode = false := by simpa using hf
      rw [if_neg hf]
      by_cases ho : o index true = true
      · rw [if_pos ho]; right; right; left; exact ⟨hf', ho, rfl⟩
      · have ho' : o index true = false := by simpa using ho
        rw [if_neg ho]
        by_cases ho2 : o index false = true
        · rw [if_pos ho2]; right; right; right; exact ⟨hf', ho', rfl⟩
        · rw [if_neg ho2]; right; right; right; exact ⟨hf', ho', rfl⟩

theorem stepTr_idx (ctx : SegCtx) (o : ℕ → Bool → Bool) (index : ℕ)
    (segment : Segment) (fs : List String) :
    ∀ a ∈ stepTr (segStep ctx o index segment fs), a.idx = index := by
  intro a ha
  rcases stepTr_spec ctx o index segment fs with h | ⟨_, h⟩ | ⟨_, _, h⟩ | ⟨_, _, h⟩ <;>
    rw [h] at ha
  · simp at ha
  · rw [List.mem_singleton] at ha; subst ha; rfl
  · rw [List.mem_singleton] at ha; subst ha; rfl
  · rw [List.mem_cons, List.mem_singleton] at ha
    rcases ha with rfl | rfl <;> rfl

theorem segLoop_cons_done {ctx : SegCtx} {o : ℕ → Bool → Bool} {index : ℕ}
    {segment : Segment} {rest : List Segment} {fs : List String} {path : String}
    {fs' : List String} {tr : List Attempt}
    (hstep : segStep ctx o index segment fs = .done path fs' tr) :
    segLoop ctx o index (segment :: rest) fs =
      { result :=
          match (segLoop ctx o (index + 1) rest fs').result with
          | .ok paths => .ok (path :: paths)
          | .error e => .error e
        fs := (segLoop ctx o (index + 1) rest fs').fs
        trace := tr ++ (segLoop ctx o (index + 1) rest fs').trace } := by
  conv_lhs => rw [segLoop]
  rw [hstep]

theorem segLoop_cons_threw {ctx : SegCtx} {o : ℕ → Bool → Bool} {index : ℕ}
    {segment : Segment} {rest : List Segment} {fs : List String} {err : String}
    {fs' : List String} {tr : List Attempt}
    (hstep : segStep ctx o index segment fs = .threw err fs' tr) :
    segLoop ctx o index (segment :: rest) fs = ⟨.error err, fs', tr⟩ := by
  conv_lhs => rw [segLoop]
  rw [hstep]

theorem segLoop_cons_done_trace {ctx : SegCtx} {o : ℕ → Bool → Bool} {index : ℕ}
    {segment : Segment} {rest : List Segment} {fs : List String} {path : String}
    {fs' : List String} {tr : List Attempt}
    (hstep : segStep ctx o index segment fs = .done path fs' tr) :
    (segLoop ctx o index (segment :: rest) fs).trace =
      tr ++ (segLoop ctx o (index + 1) rest fs').trace := by
  rw [segLoop_cons_done hstep]

/-! ## Claim C2: idempotence -/

theorem segLoop_all_exist (ctx : SegCtx) (o : ℕ → Bool → Bool) :
    ∀ (segs : List Segment) (index : ℕ) (fs : List String),
    (∀ p ∈ pathsOf ctx index segs, fs.contains p = true) →
    segLoop ctx o index segs fs = ⟨.ok (pathsOf ctx index segs), fs, []⟩ := by
  intro segs
  induction segs with
  | nil => intro index fs _; rfl
  | cons seg rest ih =>
      intro index fs h
      have hp : fs.contains (outPath ctx index seg) = true :=
        h _ (by rw [pathsOf]; exact List.mem_cons_self _ _)
      rw [segLoop_cons_done (segStep_of_contains ctx o index seg fs hp)]
      rw [ih (index + 1) fs
        (fun p hm => h p (by rw [pathsOf]; exact List.mem_cons_of_mem _ hm))]
      rw [pathsOf]
      rfl

theorem segLoop_ok_spec (ctx : SegCtx) (o : ℕ → Bool → Bool) :
    ∀ (segs : List Segment) (index : ℕ) (fs : List String) (ps : List String),
    (segLoop ctx o index segs fs).result = .ok ps →
    ps = pathsOf ctx index segs ∧
    (∀ p ∈ ps, (segLoop ctx o index segs fs).fs.contains p = true) ∧
    (∀ p, fs.contains p = true → (segLoop ctx o index segs fs).fs.contains p = true) := by
  intro segs
  induction segs with
  | nil =>
      intro index fs ps h
      cases h
      exact ⟨rfl, fun p hp => absurd hp (List.not_mem_nil p), fun p hp => hp⟩
  | cons seg rest ih =>
      intro index fs ps h
      cases hstep : segStep ctx o index seg fs with
      | threw err fs' tr =>
          rw [segLoop_cons_threw hstep] at h
          cases h
      | done path fs' tr =>
          rw [segLoop_cons_done hstep] at h ⊢
          obtain ⟨hpath, hcont, hmono⟩ := segStep_done_spec hstep
          cases hres : (segLoop ctx o (index + 1) rest fs').result with
          | error e =>
              rw [hres] at h
              cases h
          | ok paths =>
              rw [hres] at h
              obtain ⟨hps, hmem, hmono'⟩ := ih (index + 1) fs' paths hres
              cases h
              refine ⟨?_, ?_, ?_⟩
              · rw [pathsOf, hps, hpath]
              · intro p hp
                rcases List.mem_cons.mp hp with rfl | hp
                · exact hmono' p hcont
                · exact hmem p hp
              · intro p hp
                exact hmono' p (hmono p hp)

/-- CLAIM C2: when a `segmentVideo` call returns path list `ps`, a second
call with identical inputs against the resulting file set returns the same
path list, leaves the file set unchanged, and performs zero tool
invocations (its trace is empty): every segment's destination already
exists, and the idempotence check accepts each without invoking the tool. -/
theorem segmentVideo_idempotent (inputPath outputDir : String)
    (segments : List Segment) (options : SegmentOptions) (fs0 : List String)
    (o1 o2 : ℕ → Bool → Bool) (ps : List String)
    (h : (segmentVideo inputPath outputDir segments options fs0 o1).result = .ok ps) :
    segmentVideo inputPath outputDir segments options
        (segmentVideo inputPath outputDir segments options fs0 o1).fs o2 =
      ⟨.ok ps, (segmentVideo inputPath outputDir segments options fs0 o1).fs, []⟩ := by
  obtain ⟨hps, hmem, _⟩ := segLoop_ok_spec _ o1 segments 0 fs0 ps h
  subst hps
  exact segLoop_all_exist _ o2 segments 0 _ hmem

/-- CLAIM C2 (witness): a successful one-segment run followed by a rerun
whose oracle would fail every invocation; the rerun still succeeds with
the same path list and an empty trace. -/
theorem segmentVideo_idempotent_witness :
    segmentVideo "in.mp4" "out" [⟨some "A", some "00:00:00", some "00:00:10"⟩] {}
        (segmentVideo "in.mp4" "out" [⟨some "A", some "00:00:00", some "00:00:10"⟩]
          {} [] (fun _ _ => true)).fs (fun _ _ => false) =
      ⟨.ok ["out/A.mp4"],
        (segmentVideo "in.mp4" "out" [⟨some "A", some "00:00:00", some "00:00:10"⟩]
          {} [] (fun _ _ => true)).fs, []⟩ :=
  segmentVideo_idempotent "in.mp4" "out"
    [⟨some "A", some "00:00:00", some "00:00:10"⟩] {} [] (fun _ _ => true)
    (fun _ _ => false) ["out/A.mp4"] (by decide)

/-! ## Claim C8: attempt counts and fallback order -/

theorem segLoop_idx_ge (ctx : SegCtx) (o : ℕ → Bool → Bool) :
    ∀ (segs : List Segment) (index : ℕ) (fs : List String),
    ∀ a ∈ (segLoop ctx o index segs fs).trace, index ≤ a.idx := by
  intro segs
  induction segs with
  | nil => intro index fs a ha; simp [segLoop] at ha
  | cons seg rest ih =>
      intro index fs a ha
      cases hstep : segStep ctx o index seg fs with
      | done path fs' tr =>
          rw [segLoop_cons_done_trace hstep, List.mem_append] at ha
          rcases ha with ha | ha
          · have := stepTr_idx ctx o index seg fs a (by rw [hstep]; exact ha)
            omega
          · have := ih (index + 1) fs' a ha
            omega
      | threw err fs' tr =>
          rw [segLoop_cons_threw hstep] at ha
          have := stepTr_idx ctx o index seg fs a (by rw [hstep]; exact ha)
          omega

theorem attemptsFor_append (t1 t2 : List Attempt) (j : ℕ) :
    attemptsFor (t1 ++ t2) j = attemptsFor t1 j ++ attemptsFor t2 j := by
  unfold attemptsFor
  exact List.filter_append t1 t2

theorem attemptsFor_eq_nil {tr : List Attempt} {j : ℕ}
    (h : ∀ a ∈ tr, a.idx ≠ j) : attemptsFor tr j = [] := by
  rw [attemptsFor, List.filter_eq_nil_iff]
  intro a ha
  simpa using h a ha

theorem attemptsFor_eq_self {tr : List Attempt} {j : ℕ}
    (h : ∀ a ∈ tr, a.idx = j) : attemptsFor tr j = tr := by
  rw [attemptsFor, List.filter_eq_self]
  intro a ha
  simpa using h a ha

theorem mem_attemptsFor {tr : List Attempt} {j : ℕ} {a : Attempt}
    (ha : a ∈ tr) (hj : a.idx = j) : a ∈ attemptsFor tr j :=
  List.mem_filter.mpr ⟨ha, by simpa using hj⟩

theorem attemptsFor_segLoop (ctx : SegCtx) (o : ℕ → Bool → Bool) :
    ∀ (segs : List Segment) (index : ℕ) (fs : List String) (j : ℕ),
    attemptsFor (segLoop ctx o index segs fs).trace j = [] ∨
    (ctx.forceEncode = true ∧ ∃ dur,
      attemptsFor (segLoop ctx o index segs fs).trace j = [⟨j, false, dur⟩]) ∨
    (ctx.forceEncode = false ∧ o j true = true ∧ ∃ dur,
      attemptsFor (segLoop ctx o index segs fs).trace j = [⟨j, true, dur⟩]) ∨
    (ctx.forceEncode = false ∧ o j true = false ∧ ∃ dur,
      attemptsFor (segLoop ctx o index segs fs).trace j =
        [⟨j, true, dur⟩, ⟨j, false, dur⟩]) := by
  intro segs
  induction segs with
  | nil => intro index fs j; left; rfl
  | cons seg rest ih =>
      intro index fs j
      have hsp := stepTr_spec ctx o index seg fs
      cases hstep : segStep ctx o index seg fs with
      | done path fs' tr =>
          rw [hstep] at hsp
          simp only [stepTr] at hsp
          rw [segLoop_cons_done_trace hstep, attemptsFor_append]
          by_cases hj : j = index
          · subst hj
            have hnil : attemptsFor (segLoop ctx o (j + 1) rest fs').trace j = [] :=
              attemptsFor_eq_nil (fun a ha => by
                have := segLoop_idx_ge ctx o rest (j + 1) fs' a ha
                omega)
            rw [hnil, List.append_nil]
            rcases hsp with h | ⟨hf, h⟩ | ⟨hf, ho, h⟩ | ⟨hf, ho, h⟩
            · left; rw [h]; rfl
            · right; left
              refine ⟨hf, segDur seg, ?_⟩
              rw [h, attemptsFor_eq_self (fun a ha => by
                rw [List.mem_singleton] at ha; subst ha; rfl)]
            · right; right; left
              refine ⟨hf, ho, segDur seg, ?_⟩
              rw [h, attemptsFor_eq_self (fun a ha => by
                rw [List.mem_singleton] at ha; subst ha; rfl)]
            · right; right; right
              refine ⟨hf, ho, segDur seg, ?_⟩
              rw [h, attemptsFor_eq_self (fun a ha => by
                rw [List.mem_cons, List.mem_singleton] at ha
                rcases ha with rfl | rfl <;> rfl)]
          · have htr : attemptsFor tr j = [] :=
              attemptsFor_eq_nil (fun a ha => by
                have := stepTr_idx ctx o index seg fs a (by rw [hstep]; exact ha)
                omega)
            rw [htr, List.nil_append]
            exact ih (index + 1) fs' j
      | threw err fs' tr =>
          rw [segLoop_cons_threw hstep]
          rw [hstep] at hsp
          simp only [stepTr] at hsp
          show attemptsFor tr j = [] ∨ _
          by_cases hj : j = index
          · subst hj
            rcases hsp with h | ⟨hf, h⟩ | ⟨hf, ho, h⟩ | ⟨hf, ho, h⟩
            · left; rw [h]; rfl
            · right; left
              refine ⟨hf, segDur seg, ?_⟩
              rw [h, attemptsFor_eq_self (fun a ha => by
                rw [List.mem_singleton] at ha; subst ha; rfl)]
            · right; right; left
              refine ⟨hf, ho, segDur seg, ?_⟩
              rw [h, attemptsFor_eq_self (fun a ha => by
                rw [List.mem_singleton] at ha; subst ha; rfl)]
            · right; right; right
              refine ⟨hf, ho, segDur seg, ?_⟩
              rw [h, attemptsFor_eq_self (fun a ha => by
                rw [List.mem_cons, List.mem_singleton] at ha
                rcases ha with rfl | rfl <;> rfl)]
          · left
            exact attemptsFor_eq_nil (fun a ha => by
              have := stepTr_idx ctx o index seg fs a (by rw [hstep]; exact ha)
              omega)

/-- CLAIM C8: without `forceEncode` (and for any format other than webm,
as the claim is scoped), a segment never gets more than two tool
invocations, and if its stream-copy invocation fails exactly one re-encode
invocation follows it; with `forceEncode`, a segment gets at most one
invocation and every invocation for it uses the re-encode path, its
outcome final. -/
theorem segmentVideo_attempt_bounds (inputPath outputDir : String)
    (segments : List Segment) (options : SegmentOptions) (fs : List String)
    (o : ℕ → Bool → Bool) (j : ℕ) :
    (safeGet options.forceEncode false = false →
      safeGet options.format OutputFormat.mp4 ≠ OutputFormat.webm →
      (attemptsFor (segmentVideo inputPath outputDir segments options fs o).trace j).length ≤ 2 ∧
      ((∃ d, Attempt.mk j true d ∈
          (segmentVideo inputPath outputDir segments options fs o).trace) →
        o j true = false →
        ∃ d, attemptsFor (segmentVideo inputPath outputDir segments options fs o).trace j =
          [⟨j, true, d⟩, ⟨j, false, d⟩])) ∧
    (safeGet options.forceEncode false = true →
      (attemptsFor (segmentVideo inputPath outputDir segments options fs o).trace j).length ≤ 1 ∧
      ∀ a ∈ attemptsFor (segmentVideo inputPath outputDir segments options fs o).trace j,
        a.streamCopy = false) := by
  have hrun : segmentVideo inputPath outputDir segments options fs o =
      segLoop
        { inputPath := inputPath
          outputDir := outputDir
          format := safeGet options.format .mp4
          quality := safeGet options.quality .medium
          forceEncode := safeGet options.forceEncode false
          audioOnly := safeGet options.audioOnly false } o 0 segments fs := rfl
  rw [hrun]
  have hshape := attemptsFor_segLoop
    { inputPath := inputPath
      outputDir := outputDir
      format := safeGet options.format .mp4
      quality := safeGet options.quality .medium
      forceEncode := safeGet options.forceEncode false
      audioOnly := safeGet options.audioOnly false } o segments 0 fs j
  constructor
  · intro hfe _
    rcases hshape with h | ⟨hf, d, h⟩ | ⟨hf, ho, d, h⟩ | ⟨hf, ho, d, h⟩
    · refine ⟨by rw [h]; simp, ?_⟩
      rintro ⟨d0, hmem⟩ _
      have hin := mem_attemptsFor hmem rfl
      rw [h] at hin
      simp at hin
    · have hf' : safeGet options.forceEncode false = true := hf
      rw [hfe] at hf'
      simp at hf'
    · refine ⟨by rw [h]; simp, ?_⟩
      intro _ hof
      have ho' : o j true = true := ho
      rw [hof] at ho'
      simp at ho'
    · exact ⟨by rw [h]; simp, fun _ _ => ⟨d, h⟩⟩
  · intro hfe
    rcases hshape with h | ⟨hf, d, h⟩ | ⟨hf, ho, d, h⟩ | ⟨hf, ho, d, h⟩
    · refine ⟨by rw [h]; simp, ?_⟩
      rw [h]
      intro a ha
      simp at ha
    · refine ⟨by rw [h]; simp, ?_⟩
      rw [h]
      intro a ha
      rw [List.mem_singleton] at ha
      subst ha
      rfl
    · have hf' : safeGet options.forceEncode false = false := hf
      rw [hfe] at hf'
      simp at hf'
    · have hf' : safeGet options.forceEncode false = false := hf
      rw [hfe] at hf'
      simp at hf'

/-- CLAIM C8 (witness): the theorem applied to a one-segment run whose
tool fails both invocations: at most two attempts were made and the trace
for segment 0 is exactly the copy attempt followed by the single re-encode
attempt. -/
theorem segmentVideo_attempt_bounds_witness :
    (attemptsFor (segmentVideo "in.mp4" "out"
        [⟨some "A", some "00:00:00", some "00:00:10"⟩] {} []
        (fun _ _ => false)).trace 0).length ≤ 2 ∧
    ∃ d, attemptsFor (segmentVideo "in.mp4" "out"
        [⟨some "A", some "00:00:00", some "00:00:10"⟩] {} []
        (fun _ _ => false)).trace 0 = [⟨0, true, d⟩, ⟨0, false, d⟩] := by
  have h := (segmentVideo_attempt_bounds "in.mp4" "out"
    [⟨some "A", some "00:00:00", some "00:00:10"⟩] {} []
    (fun _ _ => false) 0).1 rfl (by decide)
  exact ⟨h.1, h.2 ⟨some 10, by decide⟩ rfl⟩

end SegYt
